import Mathlib

/-
Verification development for `scripts/refactor.py`, a tool that rewrites a
file of shell alias definitions: it unifies aliases whose expanded commands
coincide under a canonical name, and auto-generates aliases for repeated
plain command segments.

Strings are modelled as `List Char` (`Str`), Python dicts as ordered
association lists built by insert-or-overwrite, mirroring CPython insertion
order semantics.  Every definition is translated from the Python source;
regular expressions are translated by their matching behaviour on the
relevant inputs (ASCII text lines).
-/

namespace Refactor

abbrev Str := List Char

/-- Python whitespace for `str.strip`, `\s` (ASCII range). -/
def pyIsSpace (c : Char) : Bool :=
  c == ' ' || c == '\t' || c == '\n' || c == '\r' || c == '\x0b' || c == '\x0c'

def pyLstrip (s : Str) : Str := s.dropWhile pyIsSpace

def pyRstrip (s : Str) : Str := (s.reverse.dropWhile pyIsSpace).reverse

def pyStrip (s : Str) : Str := pyLstrip (pyRstrip s)

/-- NAME_RE charset: `[A-Za-z0-9._-]`. -/
def isNameChar (c : Char) : Bool :=
  c.isAlpha || c.isDigit || c == '.' || c == '_' || c == '-'

/-- NAME_RE: `^[A-Za-z0-9._-]+$`. -/
def nameOk (s : Str) : Bool := !s.isEmpty && s.all isNameChar

/-- CMDISH_FIRST_TOKEN_RE charset: letters, digits, dot, underscore, slash,
hyphen. -/
def isCmdishChar (c : Char) : Bool :=
  c.isAlpha || c.isDigit || c == '.' || c == '_' || c == '/' || c == '-'

/-- Ordered association list standing for a Python `dict` keyed by strings. -/
abbrev Dict (α : Type) := List (Str × α)

def dictGet? {α : Type} : Dict α → Str → Option α
  | [], _ => none
  | p :: rest, k => if p.1 == k then some p.2 else dictGet? rest k

def dictHasKey {α : Type} (m : Dict α) (k : Str) : Bool :=
  m.any (fun p => p.1 == k)

/-- `d[k] = v`: overwrite in place (keeping the key's original position) or
append, as a CPython dict does. -/
def dictInsert {α : Type} : Dict α → Str → α → Dict α
  | [], k, v => [(k, v)]
  | p :: rest, k, v =>
    if p.1 == k then (p.1, v) :: rest else p :: dictInsert rest k v

/-- `d.setdefault(k, []).append(v)`. -/
def dictLAppend : Dict (List Str) → Str → Str → Dict (List Str)
  | [], k, v => [(k, [v])]
  | p :: rest, k, v =>
    if p.1 == k then (p.1, p.2 ++ [v]) :: rest else p :: dictLAppend rest k v

/-- `d[k] = d.get(k, 0) + 1`. -/
def dictNIncr : Dict Nat → Str → Dict Nat
  | [], k => [(k, 1)]
  | p :: rest, k =>
    if p.1 == k then (p.1, p.2 + 1) :: rest else p :: dictNIncr rest k

def buildDict {α : Type} (entries : List (Str × α)) : Dict α :=
  entries.foldl (fun m p => dictInsert m p.1 p.2) []

/-- split_comment_unquoted scanner: walks the line left to right tracking
single and double quote state; stops at the first `#` outside quotes,
returning the code before it and the comment from it on (comment `[]` iff
there is no `#`). -/
def splitCommentAux : Str → Str → Bool → Bool → (Str × Str)
  | [], acc, _, _ => (acc.reverse, [])
  | c :: rest, acc, inS, inD =>
    if c == '\'' && !inD then splitCommentAux rest (c :: acc) (!inS) inD
    else if c == '"' && !inS then splitCommentAux rest (c :: acc) inS (!inD)
    else if c == '#' && !inS && !inD then (acc.reverse, c :: rest)
    else splitCommentAux rest (c :: acc) inS inD

/-- split_comment_unquoted: returns (code without trailing ws, exact ws before
`#`, comment from `#` on); `(line, "", "")` when there is no comment. -/
def splitCommentUnquoted (line : Str) : Str × Str × Str :=
  match splitCommentAux line [] false false with
  | (_, []) => (line, [], [])
  | (code, com) =>
    let ws := (code.reverse.takeWhile pyIsSpace).reverse
    (code.take (code.length - ws.length), ws, com)

/-- Parsed alias definition line (dataclass AliasLine); `pre` is the
`indentation + "alias "` prefix. -/
structure AliasLine where
  original : Str
  pre : Str
  name : Str
  cmdRaw : Str
  wsBeforeHash : Str
  comment : Str
  deriving DecidableEq, Repr

/-- Regex `^(\s*alias\s+)([^=]+)=(.*)$`: returns (group1, group2, group3).
`[^=]+` is the maximal nonempty run before the first `=`.  (When the only
candidate for group 2 is whitespace stolen from `\s+`, CPython still matches
but the stripped name is empty and `parse_alias_line` returns None; we return
none directly, which is observationally the same.) -/
def matchAliasRe (code : Str) : Option (Str × Str × Str) :=
  let ws0 := code.takeWhile pyIsSpace
  let r1 := code.drop ws0.length
  if ("alias".data).isPrefixOf r1 then
    let r2 := r1.drop 5
    let ws1 := r2.takeWhile pyIsSpace
    if ws1.isEmpty then none
    else
      let r3 := r2.drop ws1.length
      let g2 := r3.takeWhile (fun c => c != '=')
      if g2.isEmpty then none
      else
        match r3.drop g2.length with
        | '=' :: rest => some (ws0 ++ "alias".data ++ ws1, g2, rest)
        | _ => none
  else none

/-- parse_alias_line. -/
def parseAliasLine (line : Str) : Option AliasLine :=
  if ("alias ".data).isPrefixOf (pyLstrip line) then
    match matchAliasRe (splitCommentUnquoted line).1 with
    | some g =>
      if nameOk (pyStrip g.2.1) then
        some ⟨line, g.1, pyStrip g.2.1, g.2.2,
              (splitCommentUnquoted line).2.1, (splitCommentUnquoted line).2.2⟩
      else none
    | none => none
  else none

/-- unwrap_cmd result: (leading_ws, quote, inner, trailing_ws); `quote` is
`[]` or a single quote character. -/
structure Unwrapped where
  leadingWs : Str
  quote : Str
  inner : Str
  trailingWs : Str
  deriving DecidableEq, Repr

/-- unwrap_cmd: regex `^(\s*)(.*?)(\s*)$` takes the maximal whitespace
prefix/suffix; then full-string quotes are unwrapped. -/
def unwrapCmd (cmdRaw : Str) : Unwrapped :=
  let leading := cmdRaw.takeWhile pyIsSpace
  let rest := cmdRaw.dropWhile pyIsSpace
  let k := (rest.reverse.takeWhile pyIsSpace).length
  let body := rest.take (rest.length - k)
  let trailing := rest.drop (rest.length - k)
  if 2 ≤ body.length ∧ body.head? = body.getLast? ∧
      (body.head? = some '\'' ∨ body.head? = some '"') then
    ⟨leading, body.take 1, (body.drop 1).dropLast, trailing⟩
  else
    ⟨leading, [], body, trailing⟩

/-- rewrap_cmd. -/
def rewrapCmd (leadingWs quote inner trailingWs : Str) : Str :=
  leadingWs ++ quote ++ inner ++ quote ++ trailingWs

/-- first_token: first whitespace-delimited token of the lstripped string. -/
def firstToken (s : Str) : Str :=
  (s.dropWhile pyIsSpace).takeWhile (fun c => !(pyIsSpace c))

/-- strip_first_token: remainder after the first token and the first
whitespace run; `[]` when there is no further part. -/
def stripFirstToken (s : Str) : Str :=
  let s2 := s.dropWhile pyIsSpace
  if s2.isEmpty then []
  else
    let rest := s2.dropWhile (fun c => !(pyIsSpace c))
    if rest.isEmpty then [] else rest.dropWhile pyIsSpace

/-- expand_prefix_aliases: expand the leading token through the alias map,
chaining up to `depth` substitutions (default call sites use 10). -/
def expandPrefixAliases (cmd : Str) (m : Dict Str) (depth : Nat) : Str :=
  match depth with
  | 0 => cmd
  | d + 1 =>
    let tok := firstToken cmd
    if tok.isEmpty then cmd
    else
      match dictGet? m tok with
      | none => cmd
      | some repl =>
        let rest := stripFirstToken cmd
        expandPrefixAliases
          (if rest.isEmpty then repl else pyRstrip (repl ++ ' ' :: rest)) m d

/-- Python string `≤` (lexicographic over code points). -/
def strLeB : Str → Str → Bool
  | [], _ => true
  | _ :: _, [] => false
  | c :: x, d :: y => c.toNat < d.toNat || (c.toNat == d.toNat && strLeB x y)

/-- Order of the Python sort key `(len(a), a)` in `choose_canonical`. -/
def canonLe (a b : Str) : Bool :=
  decide (a.length < b.length) || (a.length == b.length && strLeB a b)

/-- Stable insertion used to model Python `sorted` (a stable sort; any
stable sort by the same key produces the same list). -/
def insertLe {α : Type} (le : α → α → Bool) (x : α) : List α → List α
  | [] => [x]
  | y :: ys => if le x y then x :: y :: ys else y :: insertLe le x ys

/-- Stable sort by a total boolean relation, modelling Python `sorted`. -/
def sortBy {α : Type} (le : α → α → Bool) : List α → List α
  | [] => []
  | x :: xs => insertLe le x (sortBy le xs)

/-- choose_canonical: `sorted(aliases, key=lambda a: (len(a), a))[0]`
(total on nonempty input; `[]` for the never-occurring empty input). -/
def chooseCanonical (aliases : List Str) : Str :=
  match sortBy canonLe aliases with
  | [] => []
  | c :: _ => c

/-- Key order for `sorted(keys, key=len, reverse=True)` (stable descending
by length). -/
def lenDescLe (a b : Str) : Bool := decide (b.length ≤ a.length)

/-- AUTO_SAFE_RE characters: `[a-z0-9_-]` is allowed, everything else is
replaced.  (Each maximal bad run becomes one underscore; since consecutive
underscores are collapsed right after, a per-character replacement followed
by the collapse is equivalent.) -/
def isAutoSafe (c : Char) : Bool :=
  c.isLower || c.isDigit || c == '_' || c == '-'

/-- MULTI_UNDERSCORE_RE collapse: every run of underscores becomes one. -/
def collapseUnd : Str → Str
  | [] => []
  | [c] => [c]
  | c :: d :: rest =>
    if c == '_' && d == '_' then collapseUnd (d :: rest)
    else c :: collapseUnd (d :: rest)

def stripUnd (s : Str) : Str :=
  ((s.dropWhile (fun c => c == '_')).reverse.dropWhile (fun c => c == '_')).reverse

/-- sanitize_auto_name with max_len = 48. -/
def sanitizeAutoName (seg : Str) : Str :=
  let s := (pyStrip seg).map Char.toLower
  let s := s.map (fun c => if isAutoSafe c then c else '_')
  let s := stripUnd (collapseUnd s)
  let s := if s.isEmpty then "cmd".data else s
  let s := if 48 < s.length then (s.take 48).reverse.dropWhile (fun c => c == '_') |>.reverse
           else s
  "auto_".data ++ s

/-- OP_SPLIT_RE separator match attempted at the current position: greedy
whitespace, one of `&&`, `||`, `|`, `;` (in this alternation order), greedy
whitespace.  An operator can only follow the full whitespace run, since all
operators start with a non-space character. -/
def trySepAt (s : Str) : Option (Str × Str) :=
  let ws1 := s.takeWhile pyIsSpace
  let r := s.drop ws1.length
  let opLen : Nat :=
    if ("&&".data).isPrefixOf r then 2
    else if ("||".data).isPrefixOf r then 2
    else if ("|".data).isPrefixOf r then 1
    else if (";".data).isPrefixOf r then 1
    else 0
  if opLen == 0 then none
  else
    let op := r.take opLen
    let r2 := r.drop opLen
    let ws2 := r2.takeWhile pyIsSpace
    some (ws1 ++ op ++ ws2, r2.drop ws2.length)

/-- `re.split` scanner for OP_SPLIT_RE: alternating text and separator
parts, fuel-indexed (fuel `length + 1` always suffices, each step consumes
at least one character). -/
def splitOpsAux : Nat → Str → Str → List Str → List Str
  | 0, rest, cur, acc => acc ++ [cur ++ rest]
  | fuel + 1, s, cur, acc =>
    match s with
    | [] => acc ++ [cur]
    | c :: rest =>
      match trySepAt s with
      | some (sep, after) => splitOpsAux fuel after [] (acc ++ [cur, sep])
      | none => splitOpsAux fuel rest (cur ++ [c]) acc

/-- split_by_ops: `re.split` with the capturing OP_SPLIT_RE, empty parts
dropped. -/
def splitByOps (inner : Str) : List Str :=
  (splitOpsAux (inner.length + 1) inner [] []).filter (fun p => !p.isEmpty)

/-- `OP_SPLIT_RE.fullmatch(p)`: the separator match starting at position 0
consumes the whole string. -/
def opFullmatch (p : Str) : Bool :=
  match trySepAt p with
  | some (_, []) => true
  | _ => false

/-- Shell keywords rejected as first token of a plain segment. -/
def shellKeywords : List Str :=
  ["if".data, "then".data, "fi".data, "for".data, "do".data, "done".data,
   "while".data, "case".data, "esac".data, "function".data]

/-- is_plain_segment (argument is the lstripped segment). -/
def isPlainSegment (segStrip : Str) : Bool :=
  if segStrip.isEmpty then false
  else if segStrip.length < 2 then false
  else if segStrip.any (fun c => c == '\x7b' || c == '\x7d' || c == '(' || c == ')') then
    false
  else
    let tok := firstToken segStrip
    if tok.isEmpty then false
    else if shellKeywords.contains tok then false
    else tok.all isCmdishChar

/-- First full-command pattern (scanned longest first by the caller) that
the expanded segment matches exactly or as a space-separated proper prefix. -/
def findPat (full : Str) (keys : List Str) : Option Str :=
  keys.find? (fun fp => full == fp || (fp ++ [' ']).isPrefixOf full)

/-- refactor_segment: replace the longest known full-command prefix with its
canonical alias, never rewriting the defining alias into itself. -/
def refactorSegment (seg : Str) (m : Dict Str) (canon : Dict Str)
    (current : Str) (ffa : Dict Str) : Str :=
  let segStrip := pyLstrip seg
  if segStrip.isEmpty then seg
  else
    let full := expandPrefixAliases segStrip m 10
    match findPat full (sortBy lenDescLe (canon.map (fun p => p.1))) with
    | none => seg
    | some fp =>
      match dictGet? canon fp with
      | none => seg
      | some canonName =>
        if canonName == current && (dictGet? ffa current == some fp) then seg
        else
          let rest := pyLstrip (full.drop fp.length)
          let newSeg :=
            if rest.isEmpty then canonName
            else pyRstrip (canonName ++ ' ' :: rest)
          seg.take (seg.length - segStrip.length) ++ newSeg

/-- refactor_command: split on operators, rewrite every non-operator part,
join (append loop plus `"".join`). -/
def refactorCommand (inner : Str) (m : Dict Str) (canon : Dict Str)
    (current : Str) (ffa : Dict Str) : Str :=
  ((splitByOps inner).foldl
    (fun out p =>
      out ++ [if opFullmatch p then p
              else refactorSegment p m canon current ffa]) []).flatten

/-- Lines recognized as alias definitions, in file order. -/
def parsedOf (lines : List Str) : List AliasLine :=
  lines.filterMap parseAliasLine

/-- Inner (unwrapped) command of a parsed alias line. -/
def innerOf (al : AliasLine) : Str := (unwrapCmd al.cmdRaw).inner

/-- `alias_to_cmd_inner`: name to inner command, later definitions of the
same name overwriting earlier ones. -/
def aliasMapOf (lines : List Str) : Dict Str :=
  buildDict ((parsedOf lines).map (fun al => (al.name, innerOf al)))

/-- `full_for_alias`: name to bounded-expanded full command. -/
def fullForAliasOf (m : Dict Str) : Dict Str :=
  m.map (fun p => (p.1, expandPrefixAliases p.2 m 10))

/-- `dupes`: full command to the list of alias names sharing it. -/
def dupesOf (ffa : Dict Str) : Dict (List Str) :=
  ffa.foldl (fun d p => dictLAppend d p.2 p.1) []

/-- `canonical_for_full` (and `full_to_canonical_existing` in phase 2). -/
def canonicalOf (dupes : Dict (List Str)) : Dict Str :=
  dupes.map (fun p => (p.1, chooseCanonical p.2))

/-- One line of the phase-1 rewrite loop (main, lines 292-313). -/
def phase1Line (m canon ffa : Dict Str) (line : Str) : Str :=
  match parseAliasLine line with
  | none => line
  | some al =>
    let u := unwrapCmd al.cmdRaw
    let newInner := refactorCommand u.inner m canon al.name ffa
    al.pre ++ al.name ++ '=' ::
      rewrapCmd u.leadingWs u.quote newInner u.trailingWs ++
      (if al.comment.isEmpty then [] else al.wsBeforeHash ++ al.comment)

/-- Phase 1: rewrite existing usages to canonical aliases. -/
def phase1Of (lines : List Str) : List Str :=
  let m := aliasMapOf lines
  let ffa := fullForAliasOf m
  let canon := canonicalOf (dupesOf ffa)
  lines.map (phase1Line m canon ffa)

/-- One part of the phase-2 segment-counting loop (main, lines 341-353). -/
def countSeg (m2 : Dict Str) (cnts : Dict Nat) (p : Str) : Dict Nat :=
  if opFullmatch p then cnts
  else
    let segStrip := pyLstrip p
    if !(isPlainSegment segStrip) then cnts
    else
      let segFull := expandPrefixAliases segStrip m2 10
      if segStrip == segFull then dictNIncr cnts segFull else cnts

/-- `seg_full_counts`: occurrences of plain, not-already-aliased segments. -/
def countsOf (parsed : List AliasLine) (m2 : Dict Str) : Dict Nat :=
  parsed.foldl
    (fun cnts al => (splitByOps (innerOf al)).foldl (countSeg m2) cnts) []

def countGetD (cnts : Dict Nat) (k : Str) : Nat :=
  match dictGet? cnts k with
  | some n => n
  | none => 0

/-- `auto_targets`: forms seen at least twice with no covering alias, sorted
by descending count then ascending lexicographic order. -/
def autoTargetsOf (cnts : Dict Nat) (covered : Dict Str) : List Str :=
  sortBy
    (fun a b =>
      decide (countGetD cnts b < countGetD cnts a) ||
      (countGetD cnts a == countGetD cnts b && strLeB a b))
    ((cnts.filter (fun p => decide (2 ≤ p.2) && !(dictHasKey covered p.1))).map
      (fun p => p.1))

/-- Collision loop `while name in existing_names`: first free `base_i`.
Fuel `existing.length + 1` always suffices (the candidates are pairwise
distinct, so one of the first `existing.length + 1` is unused). -/
def freshAux (base : Str) (existing : List Str) : Nat → Nat → Str
  | 0, i => base ++ '_' :: (Nat.repr i).data
  | fuel + 1, i =>
    let cand := base ++ '_' :: (Nat.repr i).data
    if existing.contains cand then freshAux base existing fuel (i + 1) else cand

def freshName (base : Str) (existing : List Str) : Str :=
  if existing.contains base then freshAux base existing (existing.length + 1) 2
  else base

/-- `auto_map`: full command to synthesized alias name. -/
def autoMapOf (targets : List Str) (existing0 : List Str) : Dict Str :=
  (targets.foldl
    (fun (acc : Dict Str × List Str) full =>
      let name := freshName (sanitizeAutoName full) acc.2
      (dictInsert acc.1 full name, acc.2 ++ [name]))
    ([], existing0)).1

/-- One line of the phase-2 rewrite loop (main, lines 380-425). -/
def phase2Line (m2 autoM : Dict Str) (line : Str) : Str :=
  match parseAliasLine line with
  | none => line
  | some al =>
    let u := unwrapCmd al.cmdRaw
    let newParts := (splitByOps u.inner).map (fun p =>
      if opFullmatch p then p
      else
        let segStrip := pyLstrip p
        if segStrip.isEmpty then p
        else if !(isPlainSegment segStrip) then p
        else
          let segFull := expandPrefixAliases segStrip m2 10
          if segStrip == segFull then
            match dictGet? autoM segFull with
            | some autoName => p.take (p.length - segStrip.length) ++ autoName
            | none => p
          else p)
    let newInner := newParts.flatten
    al.pre ++ al.name ++ '=' ::
      rewrapCmd u.leadingWs u.quote newInner u.trailingWs ++
      (if al.comment.isEmpty then [] else al.wsBeforeHash ++ al.comment)

/-- `full.replace("'", "'\"'\"'")`. -/
def escapeSQ (s : Str) : Str :=
  s.flatMap (fun c => if c == '\'' then "'\"'\"'".data else [c])

/-- A generated definition line
`alias {name}='{escaped}' # auto-generated`. -/
def renderAuto (p : Str × Str) : Str :=
  "alias ".data ++ p.2 ++ "='".data ++ escapeSQ p.1 ++ "'".data ++
    " # auto-generated".data

/-- Appended block of generated definitions (empty when there are none). -/
def autoBlock (autoM : Dict Str) : List Str :=
  if autoM.isEmpty then []
  else
    [[], "# --- auto-generated aliases (refactor.py) ---".data] ++
      (sortBy (fun p q => strLeB p.2 q.2) autoM).map renderAuto

/-- The whole line-level pipeline of main: phase 1, phase 2, appended
auto-alias block. -/
def processLines (lines : List Str) : List Str :=
  let p1 := phase1Of lines
  let m2 := aliasMapOf p1
  let ffa2 := fullForAliasOf m2
  let covered := canonicalOf (dupesOf ffa2)
  let cnts := countsOf (parsedOf p1) m2
  let targets := autoTargetsOf cnts covered
  let autoM := autoMapOf targets (m2.map (fun p => p.1))
  (p1.map (phase2Line m2 autoM)) ++ autoBlock autoM

/-- `content.splitlines()` for newline-separated text. -/
def splitNlAux : Str → Str → List Str
  | [], cur => [cur.reverse]
  | '\n' :: rest, cur => cur.reverse :: splitNlAux rest []
  | c :: rest, cur => splitNlAux rest (c :: cur)

def splitLinesPy (s : Str) : List Str :=
  if s.isEmpty then []
  else
    let ps := splitNlAux s []
    if s.getLast? == some '\n' then ps.dropLast else ps

/-- main, with the process effects made explicit: `argv` is the full
argument vector, `content` the target file's content (`none` when the path
does not exist).  Result: (exit code, stderr lines, written content or
`none` when no write happens). -/
def mainModel (argv : List Str) (content : Option Str) :
    Nat × List Str × Option Str :=
  if argv.length < 2 then
    (2, ["Usage: refactor.py <aliases-file>".data], none)
  else
    match content with
    | none =>
      (2, ["ERROR: aliases file not found: ".data ++ argv.getD 1 []], none)
    | some c =>
      (0, [], some ((List.intercalate ['\n'] (processLines (splitLinesPy c))) ++ ['\n']))

/-! Properties of the string order and the stable sort. -/

lemma strLeB_refl (a : Str) : strLeB a a = true := by
  induction a with
  | nil => rfl
  | cons c x ih => simp [strLeB, ih]

lemma strLeB_total (a b : Str) : strLeB a b = true ∨ strLeB b a = true := by
  induction a generalizing b with
  | nil => exact Or.inl rfl
  | cons c x ih =>
    cases b with
    | nil => exact Or.inr rfl
    | cons d y =>
      rcases Nat.lt_trichotomy c.toNat d.toNat with h | h | h
      · exact Or.inl (by simp [strLeB, h])
      · rcases ih y with h2 | h2
        · exact Or.inl (by simp [strLeB, h, h2])
        · exact Or.inr (by simp [strLeB, h.symm, h2])
      · exact Or.inr (by simp [strLeB, h])

lemma strLeB_trans (a b c : Str) (hab : strLeB a b = true)
    (hbc : strLeB b c = true) : strLeB a c = true := by
  induction a generalizing b c with
  | nil => rfl
  | cons x xs ih =>
    cases b with
    | nil => simp [strLeB] at hab
    | cons y ys =>
      cases c with
      | nil => simp [strLeB] at hbc
      | cons z zs =>
        simp only [strLeB, Bool.or_eq_true, Bool.and_eq_true, decide_eq_true_eq,
          beq_iff_eq] at hab hbc ⊢
        rcases hab with h1 | ⟨h1, h1'⟩ <;> rcases hbc with h2 | ⟨h2, h2'⟩
        · exact Or.inl (h1.trans h2)
        · exact Or.inl (h2 ▸ h1)
        · exact Or.inl (h1 ▸ h2)
        · exact Or.inr ⟨h1.trans h2, ih ys zs h1' h2'⟩

lemma canonLe_refl (a : Str) : canonLe a a = true := by
  simp [canonLe, strLeB_refl]

lemma canonLe_total (a b : Str) : canonLe a b = true ∨ canonLe b a = true := by
  rcases Nat.lt_trichotomy a.length b.length with h | h | h
  · exact Or.inl (by simp [canonLe, h])
  · rcases strLeB_total a b with h2 | h2
    · exact Or.inl (by simp [canonLe, h, h2])
    · exact Or.inr (by simp [canonLe, h.symm, h2])
  · exact Or.inr (by simp [canonLe, h])

lemma canonLe_trans (a b c : Str) (hab : canonLe a b = true)
    (hbc : canonLe b c = true) : canonLe a c = true := by
  simp only [canonLe, Bool.or_eq_true, Bool.and_eq_true, decide_eq_true_eq,
    beq_iff_eq] at hab hbc ⊢
  rcases hab with h1 | ⟨h1, h1'⟩ <;> rcases hbc with h2 | ⟨h2, h2'⟩
  · exact Or.inl (h1.trans h2)
  · exact Or.inl (h2 ▸ h1)
  · exact Or.inl (h1 ▸ h2)
  · exact Or.inr ⟨h1.trans h2, strLeB_trans _ _ _ h1' h2'⟩

lemma mem_insertLe {α : Type} (le : α → α → Bool) (x : α) (l : List α)
    (y : α) : y ∈ insertLe le x l ↔ y = x ∨ y ∈ l := by
  induction l with
  | nil => simp [insertLe]
  | cons z zs ih =>
    simp only [insertLe]
    split
    · simp [List.mem_cons]
    · simp only [List.mem_cons, ih]
      tauto

lemma mem_sortBy {α : Type} (le : α → α → Bool) (l : List α) (y : α) :
    y ∈ sortBy le l ↔ y ∈ l := by
  induction l with
  | nil => simp [sortBy]
  | cons z zs ih => simp [sortBy, mem_insertLe, ih]

lemma length_insertLe {α : Type} (le : α → α → Bool) (x : α) (l : List α) :
    (insertLe le x l).length = l.length + 1 := by
  induction l with
  | nil => rfl
  | cons z zs ih =>
    simp only [insertLe]
    split
    · simp
    · simp [ih]

lemma length_sortBy {α : Type} (le : α → α → Bool) (l : List α) :
    (sortBy le l).length = l.length := by
  induction l with
  | nil => rfl
  | cons z zs ih => simp [sortBy, length_insertLe, ih]

lemma pairwise_insertLe {α : Type} (le : α → α → Bool)
    (htot : ∀ a b, le a b = true ∨ le b a = true)
    (htr : ∀ a b c, le a b = true → le b c = true → le a c = true)
    (x : α) (l : List α) (h : l.Pairwise (fun a b => le a b = true)) :
    (insertLe le x l).Pairwise (fun a b => le a b = true) := by
  induction l with
  | nil => simp [insertLe]
  | cons y ys ih =>
    rcases List.pairwise_cons.mp h with ⟨hy, hys⟩
    simp only [insertLe]
    split
    · rename_i hxy
      refine List.pairwise_cons.mpr ⟨?_, h⟩
      intro z hz
      rcases List.mem_cons.mp hz with rfl | hz2
      · exact hxy
      · exact htr _ _ _ hxy (hy _ hz2)
    · rename_i hxy
      refine List.pairwise_cons.mpr ⟨?_, ih hys⟩
      intro z hz
      rcases (mem_insertLe le x ys z).mp hz with rfl | hz2
      · rcases htot z y with h1 | h1
        · exact absurd h1 hxy
        · exact h1
      · exact hy _ hz2

lemma pairwise_sortBy {α : Type} (le : α → α → Bool)
    (htot : ∀ a b, le a b = true ∨ le b a = true)
    (htr : ∀ a b c, le a b = true → le b c = true → le a c = true)
    (l : List α) : (sortBy le l).Pairwise (fun a b => le a b = true) := by
  induction l with
  | nil => simp [sortBy]
  | cons z zs ih => exact pairwise_insertLe le htot htr z _ ih

lemma sortBy_head_le {α : Type} (le : α → α → Bool)
    (htot : ∀ a b, le a b = true ∨ le b a = true)
    (htr : ∀ a b c, le a b = true → le b c = true → le a c = true)
    (hrefl : ∀ a, le a a = true)
    (l : List α) (c : α) (t : List α) (hs : sortBy le l = c :: t) :
    ∀ x ∈ l, le c x = true := by
  intro x hx
  have hx2 : x ∈ c :: t := hs ▸ (mem_sortBy le l x).mpr hx
  rcases List.mem_cons.mp hx2 with rfl | hx3
  · exact hrefl x
  · have hp := pairwise_sortBy le htot htr l
    rw [hs] at hp
    exact (List.pairwise_cons.mp hp).1 x hx3

/-- C1: for every equivalence group, the canonical name chosen by
`choose_canonical` is a member of the group of minimal length, and among
the members of that minimal length it is lexicographically smallest. -/
theorem c1_choose_canonical_min (names : List Str) (h : names ≠ []) :
    chooseCanonical names ∈ names ∧
    (∀ x ∈ names, (chooseCanonical names).length ≤ x.length) ∧
    (∀ x ∈ names, x.length = (chooseCanonical names).length →
      strLeB (chooseCanonical names) x = true) := by
  cases hs : sortBy canonLe names with
  | nil =>
    exfalso
    have := length_sortBy canonLe names
    rw [hs] at this
    exact h (List.length_eq_zero.mp this.symm)
  | cons c t =>
    have hcc : chooseCanonical names = c := by
      unfold chooseCanonical
      rw [hs]
    have hle := sortBy_head_le canonLe canonLe_total canonLe_trans canonLe_refl
      names c t hs
    rw [hcc]
    refine ⟨?_, ?_, ?_⟩
    · exact (mem_sortBy canonLe names c).mp (hs ▸ List.mem_cons_self c t)
    · intro x hx
      have := hle x hx
      simp only [canonLe, Bool.or_eq_true, Bool.and_eq_true,
        decide_eq_true_eq, beq_iff_eq] at this
      rcases this with h1 | ⟨h1, _⟩ <;> omega
    · intro x hx hlen
      have := hle x hx
      simp only [canonLe, Bool.or_eq_true, Bool.and_eq_true,
        decide_eq_true_eq, beq_iff_eq] at this
      rcases this with h1 | ⟨_, h2⟩
      · omega
      · exact h2

/-- C1 witness: the canonical-choice law evaluated on the concrete group
consisting of `gs` and `s`. -/
theorem c1_choose_canonical_min_witness :
    chooseCanonical ["gs".data, "s".data] ∈ ["gs".data, "s".data] ∧
    (∀ x ∈ ["gs".data, "s".data],
      (chooseCanonical ["gs".data, "s".data]).length ≤ x.length) ∧
    (∀ x ∈ ["gs".data, "s".data],
      x.length = (chooseCanonical ["gs".data, "s".data]).length →
      strLeB (chooseCanonical ["gs".data, "s".data]) x = true) :=
  c1_choose_canonical_min ["gs".data, "s".data] (by decide)

/-- C6 counterexample: two shortcut bodies that differ only in the amount of
whitespace between their tokens (`git status` and `git  status`) receive
different normalized forms, fall into different equivalence groups, and
nothing is rewritten — they are not treated as equivalent. -/
theorem c6_counterexample :
    dictGet? (fullForAliasOf (aliasMapOf
        ["alias g1='git status'".data, "alias g2='git  status'".data]))
      "g1".data = some "git status".data ∧
    dictGet? (fullForAliasOf (aliasMapOf
        ["alias g1='git status'".data, "alias g2='git  status'".data]))
      "g2".data = some "git  status".data ∧
    ("git status".data : Str) ≠ "git  status".data ∧
    processLines ["alias g1='git status'".data, "alias g2='git  status'".data] =
      ["alias g1='git status'".data, "alias g2='git  status'".data] := by
  decide

/-- C6 (corrected): the normalized form performs no whitespace collapsing —
when the leading token of a segment is not a shortcut name, expansion
returns the segment verbatim, internal whitespace included, so segments
differing only in whitespace get different normalized forms. -/
theorem c6_no_whitespace_collapse (s : Str) (m : Dict Str) (d : Nat)
    (h : dictGet? m (firstToken s) = none) :
    expandPrefixAliases s m d = s := by
  cases d with
  | zero => rfl
  | succ d => simp [expandPrefixAliases, h]

/-- C6 witness: verbatim normalization evaluated on `git  status` under a
map that does not bind `git`. -/
theorem c6_no_whitespace_collapse_witness :
    dictGet? [("x".data, "y".data)] (firstToken "git  status".data) = none ∧
    expandPrefixAliases "git  status".data [("x".data, "y".data)] 10 =
      "git  status".data :=
  ⟨by decide,
   c6_no_whitespace_collapse "git  status".data [("x".data, "y".data)] 10
     (by decide)⟩

lemma foldl_push {α β : Type} (g : α → β) (l : List α) (acc : List β) :
    l.foldl (fun out p => out ++ [g p]) acc = acc ++ l.map g := by
  induction l generalizing acc with
  | nil => simp
  | cons x xs ih => simp [List.foldl_cons, ih]

/-- C5 (corrected): no window rewrite across segments exists — the command
rewriter processes each operator-delimited part independently, emitting
operator parts verbatim and rewriting each segment in isolation; windows
spanning several segments are never replaced. -/
theorem c5_per_segment_only (inner : Str) (m canon ffa : Dict Str)
    (current : Str) :
    refactorCommand inner m canon current ffa =
      ((splitByOps inner).map
        (fun p => if opFullmatch p then p
                  else refactorSegment p m canon current ffa)).flatten := by
  unfold refactorCommand
  rw [foldl_push]
  simp

/-- C5 counterexample: with `z` canonical for the pattern
`echo a && echo b`, the body of `y` contains the contiguous window
`ea && eb` whose concatenated normalized form is exactly that pattern, yet
the window is not replaced by `z` — the output keeps the per-segment
rewrite `ea && eb && echo c` instead of `z && echo c`. -/
theorem c5_counterexample :
    dictGet? (canonicalOf (dupesOf (fullForAliasOf (aliasMapOf
        ["alias ea='echo a'".data, "alias eb='echo b'".data,
         "alias z='echo a && echo b'".data,
         "alias y='echo a && echo b && echo c'".data]))))
      "echo a && echo b".data = some "z".data ∧
    processLines
        ["alias ea='echo a'".data, "alias eb='echo b'".data,
         "alias z='echo a && echo b'".data,
         "alias y='echo a && echo b && echo c'".data] =
      ["alias ea='echo a'".data, "alias eb='echo b'".data,
       "alias z='ea && eb'".data, "alias y='ea && eb && echo c'".data] ∧
    some "alias y='ea && eb && echo c'".data ≠
      some "alias y='z && echo c'".data := by
  decide

/-- C3 counterexample: with `alias gs='git status'` and
`alias s='git status'` in the input, the canonical name is `s` (shorter
than `gs`), so other bodies are rewritten to invoke `s`, not `gs`, and the
definition line of `gs` itself is rewritten to body `s` — it does not keep
body `git status`. -/
theorem c3_counterexample :
    (processLines
        ["alias gs='git status'".data, "alias s='git status'".data,
         "alias other='git status && git push'".data])[0]? =
      some "alias gs='s'".data ∧
    some "alias gs='s'".data ≠ some "alias gs='git status'".data ∧
    (processLines
        ["alias gs='git status'".data, "alias s='git status'".data,
         "alias other='git status && git push'".data])[2]? ≠
      some "alias other='gs && git push'".data := by
  decide

/-- C3 (corrected): on the example input, every other shortcut body
invoking `git status` as a prefix is rewritten to invoke `s` — the
shortest, lexicographically smallest name of the group — the definition of
`s` keeps body `git status` unchanged, and the definition of `gs` is itself
rewritten to body `s`. -/
theorem c3_example_rewrite :
    processLines
        ["alias gs='git status'".data, "alias s='git status'".data,
         "alias other='git status && git push'".data] =
      ["alias gs='s'".data, "alias s='git status'".data,
       "alias other='s && git push'".data] := by
  decide

/-- C2 counterexample: input `alias b='cc'`, `alias cc='git status'`.
Both full forms are `git status`, the canonical name is `b`, and phase 1
rewrites `cc`'s body to `b` while leaving `b`'s body `cc` unchanged.  In
the rewritten output the shortcut `b` has body `cc`, and one step of
leading-token expansion of that body under the output's alias map yields
exactly `b` — the name of the shortcut itself. -/
theorem c2_counterexample :
    processLines ["alias b='cc'".data, "alias cc='git status'".data] =
      ["alias b='cc'".data, "alias cc='b'".data] ∧
    dictGet? (aliasMapOf
        (processLines ["alias b='cc'".data, "alias cc='git status'".data]))
      "b".data = some "cc".data ∧
    expandPrefixAliases "cc".data
      (aliasMapOf
        (processLines ["alias b='cc'".data, "alias cc='git status'".data]))
      1 = "b".data := by
  decide

/-- Spec notion (section 4.3, "Single-hop expansion"): like bounded
leading-token expansion "but limited to exactly one substitution per
independent segment".  Stated from the spec's words, for comparison with
the code's computation in the unaliased-repeat detection phase. -/
def singleHopExpand (cmd : Str) (m : Dict Str) : Str :=
  let tok := firstToken cmd
  if tok.isEmpty then cmd
  else
    match dictGet? m tok with
    | none => cmd
    | some repl =>
      let rest := stripFirstToken cmd
      if rest.isEmpty then repl else pyRstrip (repl ++ ' ' :: rest)

/-- C4 counterexample: with the mutually referencing pair `a='b'`,
`b='a'`, the detection phase computes the full form of the plain segment
`b x` by the bounded 10-hop expansion, which walks the two-cycle ten times
and returns `b x` itself, so the segment is counted (twice) as unaliased;
single-hop expansion would instead give `a x`, a changed form, so the
segment would not be counted.  The computed form and the single-hop form
disagree, and the divergence is observable: the run synthesizes
`auto_b_x` from the counted segment. -/
theorem c4_counterexample :
    dictGet? (countsOf
        (parsedOf (phase1Of
          ["alias a='b'".data, "alias b='a'".data,
           "alias p='a x && q1'".data, "alias q='a x && q2'".data]))
        (aliasMapOf (phase1Of
          ["alias a='b'".data, "alias b='a'".data,
           "alias p='a x && q1'".data, "alias q='a x && q2'".data])))
      "b x".data = some 2 ∧
    expandPrefixAliases "b x".data
      (aliasMapOf (phase1Of
        ["alias a='b'".data, "alias b='a'".data,
         "alias p='a x && q1'".data, "alias q='a x && q2'".data])) 10 =
      "b x".data ∧
    singleHopExpand "b x".data
      (aliasMapOf (phase1Of
        ["alias a='b'".data, "alias b='a'".data,
         "alias p='a x && q1'".data, "alias q='a x && q2'".data])) =
      "a x".data ∧
    ("b x".data : Str) ≠ "a x".data ∧
    (processLines
        ["alias a='b'".data, "alias b='a'".data,
         "alias p='a x && q1'".data, "alias q='a x && q2'".data]).contains
      "alias auto_b_x='b x' # auto-generated".data = true := by
  decide

lemma dictGet?_isSome_dictNIncr (d : Dict Nat) (k0 k : Str)
    (h : (dictGet? (dictNIncr d k0) k).isSome = true) :
    k = k0 ∨ (dictGet? d k).isSome = true := by
  induction d with
  | nil =>
    simp only [dictNIncr, dictGet?] at h
    split at h
    · rename_i hk
      exact Or.inl (by simpa [eq_comm] using (beq_iff_eq.mp hk))
    · simp at h
  | cons p rest ih =>
    simp only [dictNIncr] at h
    split at h
    · simp only [dictGet?] at h ⊢
      split at h
      · rename_i hpk
        simp [hpk]
      · rename_i hpk
        simp only [hpk]
        exact Or.inr h
    · simp only [dictGet?] at h ⊢
      split at h
      · rename_i hpk
        simp [hpk]
      · rename_i hpk
        simp only [hpk]
        exact ih h

lemma foldl_preserve {β α : Type} (f : β → α → β) (P : β → Prop)
    (hstep : ∀ b a, P b → P (f b a)) :
    ∀ (l : List α) (b : β), P b → P (l.foldl f b) := by
  intro l
  induction l with
  | nil => exact fun b hb => hb
  | cons x xs ih => exact fun b hb => ih _ (hstep b x hb)

lemma countSeg_preserve (m2 : Dict Str) (cnts : Dict Nat) (p : Str)
    (h : ∀ k, (dictGet? cnts k).isSome = true →
      expandPrefixAliases k m2 10 = k ∧ isPlainSegment k = true) :
    ∀ k, (dictGet? (countSeg m2 cnts p) k).isSome = true →
      expandPrefixAliases k m2 10 = k ∧ isPlainSegment k = true := by
  intro k hk
  simp only [countSeg] at hk
  split at hk
  · exact h k hk
  · split at hk
    · exact h k hk
    · rename_i hop hplain
      split at hk
      · rename_i heq
        rcases dictGet?_isSome_dictNIncr _ _ _ hk with rfl | hk2
        · have hss : pyLstrip p = expandPrefixAliases (pyLstrip p) m2 10 :=
            beq_iff_eq.mp heq
          constructor
          · exact (congrArg (fun s => expandPrefixAliases s m2 10) hss).symm
          · have hpl : isPlainSegment (pyLstrip p) = true := by
              simpa using hplain
            rw [← hss]
            exact hpl
        · exact h k hk2
      · exact h k hk

/-- C4 (corrected): during unaliased-repeat detection, each plain segment's
full form is computed by the same bounded (10-hop) leading-token expansion
used elsewhere, not by single-hop expansion; a segment is counted only when
that bounded expansion returns it unchanged, so every counted form is a
plain segment fixed by the bounded expansion. -/
theorem c4_counts_use_bounded_expansion (parsed : List AliasLine)
    (m2 : Dict Str) (k : Str)
    (h : (dictGet? (countsOf parsed m2) k).isSome = true) :
    expandPrefixAliases k m2 10 = k ∧ isPlainSegment k = true := by
  have hall : ∀ k, (dictGet? (countsOf parsed m2) k).isSome = true →
      expandPrefixAliases k m2 10 = k ∧ isPlainSegment k = true := by
    unfold countsOf
    exact foldl_preserve _
      (fun cnts => ∀ k, (dictGet? cnts k).isSome = true →
        expandPrefixAliases k m2 10 = k ∧ isPlainSegment k = true)
      (fun cnts al hc =>
        foldl_preserve _ _ (fun c s hcc => countSeg_preserve m2 c s hcc) _ _ hc)
      parsed [] (fun k hk => by simp [dictGet?] at hk)
  exact hall k h

/-- C4 witness: the counted-form invariant applied to a concrete detection
state in which `git status` has been counted. -/
theorem c4_counts_use_bounded_expansion_witness :
    ((dictGet? (countsOf (parsedOf (phase1Of ["alias s='git status'".data]))
        (aliasMapOf (phase1Of ["alias s='git status'".data])))
      "git status".data).isSome = true) ∧
    (expandPrefixAliases "git status".data
        (aliasMapOf (phase1Of ["alias s='git status'".data])) 10 =
      "git status".data ∧
      isPlainSegment "git status".data = true) :=
  ⟨by decide,
   c4_counts_use_bounded_expansion
     (parsedOf (phase1Of ["alias s='git status'".data]))
     (aliasMapOf (phase1Of ["alias s='git status'".data]))
     "git status".data (by decide)⟩

/-- C8: a line not recognized as a shortcut definition is emitted
byte-identical to its input by both rewrite passes, whatever the expansion,
canonical and auto-alias maps are. -/
theorem c8_opaque_passthrough (line : Str) (m canon ffa m2 autoM : Dict Str)
    (h : parseAliasLine line = none) :
    phase1Line m canon ffa line = line ∧ phase2Line m2 autoM line = line := by
  constructor
  · simp [phase1Line, h]
  · simp [phase2Line, h]

/-- C8 witness: opaque passthrough evaluated on a comment line. -/
theorem c8_opaque_passthrough_witness :
    phase1Line [] [] [] "# plain comment line".data =
      "# plain comment line".data ∧
    phase2Line [] [] "# plain comment line".data =
      "# plain comment line".data :=
  c8_opaque_passthrough "# plain comment line".data [] [] [] [] []
    (by decide)

/-- C9: when the path argument is missing or the file does not exist, the
program reports to the error stream, exits with code 2, and writes
nothing, so the target file's content is unchanged. -/
theorem c9_usage_errors (argv : List Str) (content : Option Str)
    (h : argv.length < 2 ∨ content = none) :
    (mainModel argv content).1 = 2 ∧ (mainModel argv content).2.2 = none ∧
    (mainModel argv content).2.1 ≠ [] := by
  unfold mainModel
  rcases h with h | h
  · simp [h]
  · subst h
    by_cases hl : argv.length < 2 <;> simp [hl]

/-- C9 witness: invocation with no path argument. -/
theorem c9_usage_errors_witness :
    (mainModel ["refactor.py".data] (some "alias a='b'".data)).1 = 2 ∧
    (mainModel ["refactor.py".data] (some "alias a='b'".data)).2.2 = none ∧
    (mainModel ["refactor.py".data] (some "alias a='b'".data)).2.1 ≠ [] :=
  c9_usage_errors ["refactor.py".data] (some "alias a='b'".data)
    (Or.inl (by decide))

lemma dictGet?_dictInsert {α : Type} (m : Dict α) (k : Str) (v : α)
    (n : Str) :
    dictGet? (dictInsert m k v) n = if k == n then some v else dictGet? m n := by
  induction m with
  | nil => rfl
  | cons p rest ih =>
    simp only [dictInsert]
    split
    · rename_i hpk
      have hpk2 : p.1 = k := beq_iff_eq.mp hpk
      simp only [dictGet?, hpk2]
      by_cases hkn : (k == n) = true <;> simp [hkn]
    · rename_i hpk
      simp only [dictGet?]
      by_cases hpn : (p.1 == n) = true
      · have hpn2 : p.1 = n := beq_iff_eq.mp hpn
        have hkn : (k == n) = false := by
          rcases Bool.eq_false_or_eq_true (k == n) with ht | hf
          · have hp1k : p.1 = k := by rw [hpn2]; exact (beq_iff_eq.mp ht).symm
            exact absurd (beq_iff_eq.mpr hp1k) hpk
          · exact hf
        simp [hpn, hkn]
      · simp [hpn, ih]

lemma dictGet?_buildDict {α : Type} (entries : List (Str × α)) (n : Str) :
    dictGet? (buildDict entries) n =
      (entries.reverse.find? (fun p => p.1 == n)).map (fun p => p.2) := by
  induction entries using List.reverseRecOn with
  | nil => rfl
  | append_singleton es e ih =>
    unfold buildDict at ih ⊢
    rw [List.foldl_append]
    simp only [List.foldl_cons, List.foldl_nil]
    rw [dictGet?_dictInsert, List.reverse_append]
    simp only [List.reverse_cons, List.reverse_nil, List.nil_append,
      List.singleton_append]
    by_cases he : (e.1 == n) = true
    · simp [List.find?, he]
    · simp [List.find?, he, ih]

lemma dictGet?_mapVal {α β : Type} (m : Dict α) (g : α → β) (n : Str) :
    dictGet? (m.map (fun p => (p.1, g p.2))) n = (dictGet? m n).map g := by
  induction m with
  | nil => rfl
  | cons p rest ih =>
    simp only [List.map_cons, dictGet?]
    by_cases hpn : (p.1 == n) = true
    · simp [hpn]
    · simp [hpn, ih]

/-- The body of the last definition line of a given name (the inner command
of the last parsed alias line bearing that name). -/
def lastBodyOf (lines : List Str) (n : Str) : Option Str :=
  ((parsedOf lines).reverse.find? (fun al => al.name == n)).map innerOf

/-- C10: when a name is defined on several lines, the expansion map binds
it to the body of the last such definition, and the full-form map expands
exactly that body; earlier definitions of the name are ignored. -/
theorem c10_last_definition_wins (lines : List Str) (n : Str) :
    dictGet? (aliasMapOf lines) n = lastBodyOf lines n ∧
    dictGet? (fullForAliasOf (aliasMapOf lines)) n =
      (lastBodyOf lines n).map
        (fun i => expandPrefixAliases i (aliasMapOf lines) 10) := by
  have h1 : dictGet? (aliasMapOf lines) n = lastBodyOf lines n := by
    unfold aliasMapOf lastBodyOf
    rw [dictGet?_buildDict]
    rw [← List.map_reverse, List.find?_map]
    rw [Option.map_map]
    rfl
  refine ⟨h1, ?_⟩
  unfold fullForAliasOf
  have h2 := dictGet?_mapVal (aliasMapOf lines)
    (fun i => expandPrefixAliases i (aliasMapOf lines) 10) n
  rw [h1] at h2
  exact h2

/-! Helper lemmas for the self-reference guard. -/

lemma nameChar_not_space (c : Char) (h : isNameChar c = true) :
    pyIsSpace c = false := by
  rcases Bool.eq_false_or_eq_true (pyIsSpace c) with ht | hf
  · exfalso
    simp only [pyIsSpace, Bool.or_eq_true, beq_iff_eq] at ht
    rcases ht with ((((rfl | rfl) | rfl) | rfl) | rfl) | rfl <;>
      exact absurd h (by decide)
  · exact hf

lemma mem_takeWhile_true (p : Char → Bool) (s : Str) (c : Char)
    (h : c ∈ s.takeWhile p) : p c = true := by
  induction s with
  | nil => simp at h
  | cons x xs ih =>
    rw [List.takeWhile_cons] at h
    split at h
    · rename_i hx
      rcases List.mem_cons.mp h with rfl | h2
      · exact hx
      · exact ih h2
    · simp at h

lemma dropWhile_append_of_all (p : Char → Bool) (w t : Str)
    (hw : ∀ c ∈ w, p c = true) :
    (w ++ t).dropWhile p = t.dropWhile p := by
  induction w with
  | nil => rfl
  | cons c cs ih =>
    rw [List.cons_append, List.dropWhile_cons, if_pos (hw c (List.mem_cons_self c cs))]
    exact ih (fun x hx => hw x (List.mem_cons_of_mem c hx))

lemma dropWhile_append_of_exists (p : Char → Bool) (u v : Str)
    (hx : ∃ x ∈ u, p x = false) :
    (u ++ v).dropWhile p = u.dropWhile p ++ v := by
  induction u with
  | nil =>
    rcases hx with ⟨x, hm, _⟩
    simp at hm
  | cons y ys ih =>
    rw [List.cons_append, List.dropWhile_cons, List.dropWhile_cons]
    by_cases hy : p y = true
    · rw [if_pos hy, if_pos hy]
      apply ih
      rcases hx with ⟨x, hm, hpx⟩
      rcases List.mem_cons.mp hm with rfl | hm2
      · exact absurd hy (by simp [hpx])
      · exact ⟨x, hm2, hpx⟩
    · rw [if_neg hy, if_neg hy, List.cons_append]

lemma dropWhile_head_false (p : Char → Bool) (s : Str) (c : Char) (t : Str)
    (h : s.dropWhile p = c :: t) : p c = false := by
  induction s with
  | nil => simp at h
  | cons x xs ih =>
    rw [List.dropWhile_cons] at h
    split at h
    · exact ih h
    · rename_i hx
      cases h
      simpa using hx

lemma dropWhile_head_false_self (p : Char → Bool) (c : Char) (t : Str)
    (hc : p c = false) : (c :: t).dropWhile p = c :: t := by
  rw [List.dropWhile_cons, if_neg (by simp [hc])]

lemma take_ws_of_lstrip (seg : Str) :
    seg.take (seg.length - (pyLstrip seg).length) = seg.takeWhile pyIsSpace := by
  have hsplit : seg.takeWhile pyIsSpace ++ seg.dropWhile pyIsSpace = seg :=
    List.takeWhile_append_dropWhile pyIsSpace seg
  have hlen : (seg.takeWhile pyIsSpace).length +
      (seg.dropWhile pyIsSpace).length = seg.length := by
    conv_rhs => rw [← hsplit]
    exact (List.length_append _ _).symm
  have h2 : seg.length - (pyLstrip seg).length =
      (seg.takeWhile pyIsSpace).length := by
    unfold pyLstrip
    omega
  have h3 := List.take_left (seg.takeWhile pyIsSpace) (seg.dropWhile pyIsSpace)
  rw [hsplit] at h3
  rw [h2]
  exact h3

lemma pyRstrip_sep (a : Str) (c : Char) (t : Str) (hc : pyIsSpace c = false) :
    ∃ r : Str, pyRstrip (a ++ ' ' :: c :: t) = a ++ ' ' :: r := by
  refine ⟨((t.reverse ++ [c]).dropWhile pyIsSpace).reverse, ?_⟩
  unfold pyRstrip
  rw [List.reverse_append]
  simp only [List.reverse_cons]
  rw [List.append_assoc (t.reverse ++ [c])]
  rw [dropWhile_append_of_exists pyIsSpace (t.reverse ++ [c]) _
    ⟨c, by simp, hc⟩]
  rw [List.reverse_append]
  simp

/-- Segment-level self-reference guard: the rewriter never changes a
segment into text whose content is exactly the current shortcut's name,
whenever canonical names map back to their group's full form and names use
the identifier charset. -/
lemma refactorSegment_no_self (seg current : Str) (m canon ffa : Dict Str)
    (hcons : ∀ fp, dictGet? canon fp = some current →
      dictGet? ffa current = some fp)
    (hval : ∀ fp a, dictGet? canon fp = some a →
      a ≠ [] ∧ a.all isNameChar = true)
    (hcur : current.all isNameChar = true) :
    refactorSegment seg m canon current ffa = seg ∨
      pyLstrip (refactorSegment seg m canon current ffa) ≠ current := by
  by_cases h0 : (pyLstrip seg).isEmpty = true
  · left
    simp [refactorSegment, h0]
  · cases hf : findPat (expandPrefixAliases (pyLstrip seg) m 10)
        (sortBy lenDescLe (canon.map (fun p => p.1))) with
    | none =>
      left
      simp [refactorSegment, h0, hf]
    | some fp =>
      cases hc : dictGet? canon fp with
      | none =>
        left
        simp [refactorSegment, h0, hf, hc]
      | some canonName =>
        by_cases hg : (canonName == current &&
            (dictGet? ffa current == some fp)) = true
        · left
          simp [refactorSegment, h0, hf, hc, hg]
        · right
          have hres : refactorSegment seg m canon current ffa =
              seg.take (seg.length - (pyLstrip seg).length) ++
                (if (pyLstrip (expandPrefixAliases (pyLstrip seg) m 10
                      |>.drop fp.length)).isEmpty then canonName
                 else pyRstrip (canonName ++ ' ' ::
                   pyLstrip (expandPrefixAliases (pyLstrip seg) m 10
                     |>.drop fp.length))) := by
            simp [refactorSegment, h0, hf, hc, hg]
          have hcnX : canonName ≠ current := by
            intro hEq
            apply hg
            have hffa : dictGet? ffa current = some fp :=
              hcons fp (by rw [hc, hEq])
            rw [hEq, hffa]
            simp
          obtain ⟨hne, hall⟩ := hval fp canonName hc
          obtain ⟨c0, cn', hcn⟩ : ∃ c0 cn', canonName = c0 :: cn' := by
            cases canonName with
            | nil => exact absurd rfl hne
            | cons a b => exact ⟨a, b, rfl⟩
          have hc0 : pyIsSpace c0 = false := by
            apply nameChar_not_space
            have := List.all_eq_true.mp hall
            exact this c0 (by rw [hcn]; exact List.mem_cons_self _ _)
          rw [hres, take_ws_of_lstrip]
          have hlsw : ∀ z : Str, pyLstrip (seg.takeWhile pyIsSpace ++ z) =
              pyLstrip z := by
            intro z
            unfold pyLstrip
            exact dropWhile_append_of_all pyIsSpace _ z
              (fun c hcm => mem_takeWhile_true pyIsSpace seg c hcm)
          by_cases hrest : (pyLstrip (expandPrefixAliases (pyLstrip seg) m 10
              |>.drop fp.length)).isEmpty = true
          · rw [if_pos hrest, hlsw]
            rw [hcn]
            rw [show pyLstrip (c0 :: cn') = c0 :: cn' from
              dropWhile_head_false_self pyIsSpace c0 cn' hc0]
            rw [← hcn]
            exact hcnX
          · rw [if_neg hrest, hlsw]
            obtain ⟨rc, rt, hrr⟩ : ∃ rc rt,
                pyLstrip (expandPrefixAliases (pyLstrip seg) m 10
                  |>.drop fp.length) = rc :: rt := by
              cases hx : pyLstrip (expandPrefixAliases (pyLstrip seg) m 10
                  |>.drop fp.length) with
              | nil => rw [hx] at hrest; exact absurd rfl hrest
              | cons a b => exact ⟨a, b, rfl⟩
            have hrc : pyIsSpace rc = false :=
              dropWhile_head_false pyIsSpace _ rc rt hrr
            rw [hrr]
            obtain ⟨r, hr⟩ := pyRstrip_sep canonName rc rt hrc
            rw [hr]
            rw [hcn]
            rw [show pyLstrip ((c0 :: cn') ++ ' ' :: r) = (c0 :: cn') ++ ' ' :: r
              from dropWhile_head_false_self pyIsSpace c0 _ hc0]
            intro hEq
            have hsp : (' ' : Char) ∈ current := by
              rw [← hEq]
              exact List.mem_append_right _ (List.mem_cons_self _ _)
            have := List.all_eq_true.mp hcur ' ' hsp
            exact absurd this (by decide)

/-! Soundness of the canonical map built by main: a canonical name chosen
for a full form is itself an alias whose full form is that pattern, and it
is a parsed name.  These facts discharge the guard lemma's hypotheses for
the maps the program actually constructs. -/

lemma chooseCanonical_mem (names : List Str) (h : names ≠ []) :
    chooseCanonical names ∈ names := by
  cases hs : sortBy canonLe names with
  | nil =>
    exfalso
    have hlen := length_sortBy canonLe names
    rw [hs] at hlen
    exact h (List.length_eq_zero.mp hlen.symm)
  | cons c t =>
    have hcc : chooseCanonical names = c := by
      unfold chooseCanonical
      rw [hs]
    rw [hcc]
    exact (mem_sortBy canonLe names c).mp (hs ▸ List.mem_cons_self c t)

lemma dictGet?_mem_keys {α : Type} (m : Dict α) (k : Str) (v : α)
    (h : dictGet? m k = some v) : k ∈ m.map Prod.fst := by
  induction m with
  | nil => simp [dictGet?] at h
  | cons p rest ih =>
    simp only [dictGet?] at h
    split at h
    · rename_i hpk
      exact List.mem_cons.mpr (Or.inl (beq_iff_eq.mp hpk).symm)
    · exact List.mem_cons.mpr (Or.inr (ih h))

lemma mem_keys_isSome_dictGet? {α : Type} (m : Dict α) (k : Str)
    (h : k ∈ m.map Prod.fst) : (dictGet? m k).isSome = true := by
  induction m with
  | nil => simp at h
  | cons p rest ih =>
    simp only [List.map_cons, List.mem_cons] at h
    simp only [dictGet?]
    by_cases hpk : (p.1 == k) = true
    · simp [hpk]
    · rcases h with h | h
      · exact absurd (beq_iff_eq.mpr h.symm) hpk
      · simp only [hpk]
        simpa using ih h

lemma dictInsert_keys_sub {α : Type} (m : Dict α) (k : Str) (v : α) (x : Str)
    (h : x ∈ (dictInsert m k v).map Prod.fst) :
    x ∈ m.map Prod.fst ∨ x = k := by
  induction m with
  | nil =>
    simp only [dictInsert, List.map_cons, List.map_nil, List.mem_singleton] at h
    exact Or.inr h
  | cons p rest ih =>
    simp only [dictInsert] at h
    split at h
    · simp only [List.map_cons, List.mem_cons] at h
      rcases h with h | h
      · exact Or.inl (List.mem_cons.mpr (Or.inl h))
      · exact Or.inl (List.mem_cons.mpr (Or.inr h))
    · simp only [List.map_cons, List.mem_cons] at h
      rcases h with h | h
      · exact Or.inl (List.mem_cons.mpr (Or.inl h))
      · rcases ih h with h2 | h2
        · exact Or.inl (List.mem_cons.mpr (Or.inr h2))
        · exact Or.inr h2

lemma dictInsert_keys_nodup {α : Type} (m : Dict α) (k : Str) (v : α)
    (h : (m.map Prod.fst).Nodup) : ((dictInsert m k v).map Prod.fst).Nodup := by
  induction m with
  | nil => simp [dictInsert]
  | cons p rest ih =>
    simp only [List.map_cons, List.nodup_cons] at h
    obtain ⟨hp, hrest⟩ := h
    simp only [dictInsert]
    split
    · simp only [List.map_cons, List.nodup_cons]
      exact ⟨hp, hrest⟩
    · rename_i hpk
      simp only [List.map_cons, List.nodup_cons]
      refine ⟨?_, ih hrest⟩
      intro hmem
      rcases dictInsert_keys_sub rest k v p.1 hmem with h2 | h2
      · exact hp h2
      · exact hpk (beq_iff_eq.mpr h2)

lemma buildDict_keys_nodup {α : Type} (es : List (Str × α)) :
    ((buildDict es).map Prod.fst).Nodup := by
  unfold buildDict
  have := foldl_preserve (fun (m : Dict α) (p : Str × α) => dictInsert m p.1 p.2)
    (fun m => (m.map Prod.fst).Nodup)
    (fun m p hm => dictInsert_keys_nodup m p.1 p.2 hm) es []
  exact this (by simp)

lemma foldl_preserve_mem {β α : Type} (f : β → α → β) (P : β → Prop)
    (l : List α) (hstep : ∀ b a, a ∈ l → P b → P (f b a)) (b : β)
    (hb : P b) : P (l.foldl f b) := by
  induction l generalizing b with
  | nil => exact hb
  | cons x xs ih =>
    exact ih (fun b2 a ha hb2 => hstep b2 a (List.mem_cons_of_mem x ha) hb2)
      (f b x) (hstep b x (List.mem_cons_self x xs) hb)

lemma buildDict_keys_sub {α : Type} (es : List (Str × α)) (k : Str)
    (h : k ∈ (buildDict es).map Prod.fst) : k ∈ es.map Prod.fst := by
  unfold buildDict at h
  have := foldl_preserve_mem
    (fun (m : Dict α) (p : Str × α) => dictInsert m p.1 p.2)
    (fun m => ∀ x, x ∈ m.map Prod.fst → x ∈ es.map Prod.fst) es ?_ [] ?_
  · exact this k h
  · intro m p hp hm x hx
    rcases dictInsert_keys_sub m p.1 p.2 x hx with h2 | h2
    · exact hm x h2
    · rw [h2]
      exact List.mem_map.mpr ⟨p, hp, rfl⟩
  · intro x hx
    simp at hx

lemma keys_mapVal {α β : Type} (m : Dict α) (g : Str × α → β) :
    (m.map (fun p => (p.1, g p))).map Prod.fst = m.map Prod.fst := by
  induction m with
  | nil => rfl
  | cons p rest ih => simp only [List.map_cons, ih]

lemma keys_fullForAliasOf (m : Dict Str) :
    (fullForAliasOf m).map Prod.fst = m.map Prod.fst := by
  unfold fullForAliasOf
  exact keys_mapVal m (fun p => expandPrefixAliases p.2 m 10)

lemma mem_dictGet?_of_nodup {α : Type} (m : Dict α)
    (hnd : (m.map Prod.fst).Nodup) (p : Str × α) (hp : p ∈ m) :
    dictGet? m p.1 = some p.2 := by
  induction m with
  | nil => simp at hp
  | cons q rest ih =>
    simp only [List.map_cons, List.nodup_cons] at hnd
    obtain ⟨hq, hrest⟩ := hnd
    rcases List.mem_cons.mp hp with rfl | hp2
    · simp [dictGet?]
    · simp only [dictGet?]
      by_cases hqp : (q.1 == p.1) = true
      · exfalso
        apply hq
        rw [beq_iff_eq.mp hqp]
        exact List.mem_map.mpr ⟨p, hp2, rfl⟩
      · simp only [hqp]
        exact ih hrest hp2

lemma dictGet?_dictLAppend (d : Dict (List Str)) (k v j : Str) :
    dictGet? (dictLAppend d k v) j =
      if (k == j) = true then
        some ((dictGet? d j).getD [] ++ [v])
      else dictGet? d j := by
  induction d with
  | nil =>
    simp only [dictLAppend, dictGet?]
    by_cases hkj : (k == j) = true <;> simp [hkj]
  | cons p rest ih =>
    simp only [dictLAppend]
    split
    · rename_i hpk
      have hpk2 : p.1 = k := beq_iff_eq.mp hpk
      simp only [dictGet?, hpk2]
      by_cases hkj : (k == j) = true <;> simp [hkj]
    · rename_i hpk
      simp only [dictGet?]
      by_cases hpj : (p.1 == j) = true
      · have hkj : (k == j) = false := by
          rcases Bool.eq_false_or_eq_true (k == j) with ht | hf
          · have : p.1 = k := by
              rw [beq_iff_eq.mp hpj]
              exact (beq_iff_eq.mp ht).symm
            exact absurd (beq_iff_eq.mpr this) hpk
          · exact hf
        simp [hpj, hkj]
      · simp [hpj, ih]

lemma dupesOf_sound (ffa : Dict Str) (hnd : (ffa.map Prod.fst).Nodup)
    (full : Str) (names : List Str)
    (h : dictGet? (dupesOf ffa) full = some names) :
    names ≠ [] ∧ ∀ nm ∈ names, dictGet? ffa nm = some full := by
  unfold dupesOf at h
  have hinv := foldl_preserve_mem
    (fun (d : Dict (List Str)) (p : Str × Str) => dictLAppend d p.2 p.1)
    (fun d => ∀ fl ns, dictGet? d fl = some ns →
      ns ≠ [] ∧ ∀ nm ∈ ns, dictGet? ffa nm = some fl)
    ffa ?_ [] ?_
  · exact hinv full names h
  · intro d p hp hd fl ns hns
    rw [dictGet?_dictLAppend] at hns
    split at hns
    · rename_i hpf
      have hpf2 : p.2 = fl := beq_iff_eq.mp hpf
      injection hns with hns2
      constructor
      · rw [← hns2]
        simp
      · intro nm hnm
        rw [← hns2] at hnm
        rcases List.mem_append.mp hnm with hnm2 | hnm2
        · cases hget : dictGet? d fl with
          | none => rw [hget] at hnm2; simp at hnm2
          | some old =>
            rw [hget] at hnm2
            exact ((hd fl old hget).2 nm (by simpa using hnm2))
        · have hnm3 : nm = p.1 := by simpa using hnm2
          rw [hnm3, ← hpf2]
          exact mem_dictGet?_of_nodup ffa hnd p hp
    · exact hd fl ns hns
  · intro fl ns hns
    simp [dictGet?] at hns

lemma canonicalOf_sound (ffa : Dict Str) (hnd : (ffa.map Prod.fst).Nodup)
    (fp a : Str)
    (h : dictGet? (canonicalOf (dupesOf ffa)) fp = some a) :
    dictGet? ffa a = some fp := by
  unfold canonicalOf at h
  rw [dictGet?_mapVal (dupesOf ffa) chooseCanonical fp] at h
  rcases Option.map_eq_some'.mp h with ⟨names, hns, hch⟩
  obtain ⟨hne, hall⟩ := dupesOf_sound ffa hnd fp names hns
  have hmem : a ∈ names := hch ▸ chooseCanonical_mem names hne
  exact hall a hmem

lemma parse_nameOk (line : Str) (al : AliasLine)
    (hp : parseAliasLine line = some al) : nameOk al.name = true := by
  unfold parseAliasLine at hp
  split at hp
  · split at hp
    · split at hp
      · rename_i hok
        injection hp with hp2
        rw [← hp2]
        exact hok
      · simp at hp
    · simp at hp
  · simp at hp

lemma pipeline_canon_valid (lines : List Str) (fp a : Str)
    (h : dictGet? (canonicalOf (dupesOf (fullForAliasOf (aliasMapOf lines))))
      fp = some a) :
    dictGet? (fullForAliasOf (aliasMapOf lines)) a = some fp ∧
    a ≠ [] ∧ a.all isNameChar = true := by
  have hnd : ((fullForAliasOf (aliasMapOf lines)).map Prod.fst).Nodup := by
    rw [keys_fullForAliasOf]
    exact buildDict_keys_nodup _
  have hffa := canonicalOf_sound _ hnd fp a h
  refine ⟨hffa, ?_⟩
  have hkey : a ∈ (fullForAliasOf (aliasMapOf lines)).map Prod.fst :=
    dictGet?_mem_keys _ a fp hffa
  rw [keys_fullForAliasOf] at hkey
  have hkey2 := buildDict_keys_sub _ a hkey
  rw [List.map_map] at hkey2
  rcases List.mem_map.mp hkey2 with ⟨al, hal, hname⟩
  rcases List.mem_filterMap.mp hal with ⟨line, _, hparse⟩
  have hok := parse_nameOk line al hparse
  have hname2 : al.name = a := hname
  rw [← hname2]
  have hok2 : al.name.isEmpty = false ∧ al.name.all isNameChar = true := by
    simpa [nameOk] using hok
  constructor
  · intro hnil
    rw [hnil] at hok2
    simp at hok2
  · exact hok2.2

/-- C2 (corrected): for every shortcut X of the input file, the phase-1
segment rewriter — invoked with the expansion, canonical and full-form
maps that main builds from the file — never changes a segment into text
whose content is exactly the name X, so the rewrite itself introduces no
direct self-reference.  (A pre-existing self-definition passes through
unchanged, and self-reference through the simultaneously rewritten bodies
of other shortcuts is not prevented, as the counterexample shows.) -/
theorem c2_no_direct_self_reference (lines : List Str) (al : AliasLine)
    (seg : Str) (hal : al ∈ parsedOf lines) :
    refactorSegment seg (aliasMapOf lines)
        (canonicalOf (dupesOf (fullForAliasOf (aliasMapOf lines))))
        al.name (fullForAliasOf (aliasMapOf lines)) = seg ∨
    pyLstrip (refactorSegment seg (aliasMapOf lines)
        (canonicalOf (dupesOf (fullForAliasOf (aliasMapOf lines))))
        al.name (fullForAliasOf (aliasMapOf lines))) ≠ al.name := by
  apply refactorSegment_no_self
  · intro fp h
    exact (pipeline_canon_valid lines fp al.name h).1
  · intro fp a h
    exact (pipeline_canon_valid lines fp a h).2
  · rcases List.mem_filterMap.mp hal with ⟨line, _, hparse⟩
    have hok := parse_nameOk line al hparse
    have hok2 : al.name.isEmpty = false ∧ al.name.all isNameChar = true := by
      simpa [nameOk] using hok
    exact hok2.2

/-- C2 witness: the guard evaluated on the shortcut `s` of a concrete
file; its body segment `git status` is the group's own full form and is
left unchanged rather than rewritten to `s`. -/
theorem c2_no_direct_self_reference_witness :
    refactorSegment "git status".data
        (aliasMapOf ["alias s='git status'".data, "alias gs='git status'".data])
        (canonicalOf (dupesOf (fullForAliasOf (aliasMapOf
          ["alias s='git status'".data, "alias gs='git status'".data]))))
        "s".data
        (fullForAliasOf (aliasMapOf
          ["alias s='git status'".data, "alias gs='git status'".data])) =
      "git status".data ∨
    pyLstrip (refactorSegment "git status".data
        (aliasMapOf ["alias s='git status'".data, "alias gs='git status'".data])
        (canonicalOf (dupesOf (fullForAliasOf (aliasMapOf
          ["alias s='git status'".data, "alias gs='git status'".data]))))
        "s".data
        (fullForAliasOf (aliasMapOf
          ["alias s='git status'".data, "alias gs='git status'".data]))) ≠
      "s".data :=
  c2_no_direct_self_reference
    ["alias s='git status'".data, "alias gs='git status'".data]
    ⟨"alias s='git status'".data, "alias ".data, "s".data,
     "'git status'".data, [], []⟩
    "git status".data (by decide)

/-! Helper lemmas for the lossless reconstruction of parsed lines. -/

lemma getLast?_cons_of_ne_nil (c : Char) (bs : Str) (hb : bs ≠ []) :
    (c :: bs).getLast? = bs.getLast? := by
  cases bs with
  | nil => exact absurd rfl hb
  | cons y ys => exact List.getLast?_cons_cons

lemma dropLast_append_getLast? (bs : Str) (c : Char)
    (h : bs.getLast? = some c) : bs.dropLast ++ [c] = bs := by
  induction bs with
  | nil => simp at h
  | cons x xs ih =>
    cases xs with
    | nil =>
      simp only [List.getLast?_singleton, Option.some.injEq] at h
      simp [h]
    | cons y ys =>
      rw [show (x :: y :: ys).getLast? = (y :: ys).getLast? from
        List.getLast?_cons_cons] at h
      rw [List.dropLast_cons₂, List.cons_append, ih h]

/-- Body Unwrapper and Rewrapper round-trip: rewrapping the components of
`unwrap_cmd` with the unchanged inner text restores the raw command text
byte for byte. -/
lemma rewrap_unwrap (s : Str) :
    rewrapCmd (unwrapCmd s).leadingWs (unwrapCmd s).quote (unwrapCmd s).inner
      (unwrapCmd s).trailingWs = s := by
  simp only [unwrapCmd, rewrapCmd]
  have hsplit : s.takeWhile pyIsSpace ++ s.dropWhile pyIsSpace = s :=
    List.takeWhile_append_dropWhile pyIsSpace s
  have hbt : (s.dropWhile pyIsSpace).take
        ((s.dropWhile pyIsSpace).length -
          (((s.dropWhile pyIsSpace).reverse.takeWhile pyIsSpace)).length) ++
      (s.dropWhile pyIsSpace).drop
        ((s.dropWhile pyIsSpace).length -
          (((s.dropWhile pyIsSpace).reverse.takeWhile pyIsSpace)).length) =
      s.dropWhile pyIsSpace := List.take_append_drop _ _
  split
  · rename_i hcond
    obtain ⟨hlen2, hhl, hq⟩ := hcond
    set body := (s.dropWhile pyIsSpace).take
      ((s.dropWhile pyIsSpace).length -
        (((s.dropWhile pyIsSpace).reverse.takeWhile pyIsSpace)).length) with hbody
    cases hb : body with
    | nil => rw [hb] at hlen2; simp at hlen2
    | cons c bs =>
      have hbs : bs ≠ [] := by
        intro hbs0
        rw [hb, hbs0] at hlen2
        simp at hlen2
      have hlast : bs.getLast? = some c := by
        have h6 := hhl
        rw [hb] at h6
        have h5 : some c = (c :: bs).getLast? := h6
        rw [getLast?_cons_of_ne_nil c bs hbs] at h5
        exact h5.symm
      dsimp only
      rw [show List.take 1 (c :: bs) = [c] from rfl,
          show List.drop 1 (c :: bs) = bs from rfl]
      have hmid : [c] ++ (bs.dropLast ++ [c]) = c :: bs := by
        rw [dropLast_append_getLast? bs c hlast]
        rfl
      rw [hb] at hbt
      conv_rhs => rw [← hsplit, ← hbt, ← hmid]
      simp [List.append_assoc]
  · simp only [List.nil_append, List.append_nil]
    rw [List.append_assoc, hbt, hsplit]

lemma splitComment_ws_empty (line : Str)
    (h : (splitCommentUnquoted line).2.2 = []) :
    (splitCommentUnquoted line).2.1 = [] := by
  unfold splitCommentUnquoted at h ⊢
  cases haux : splitCommentAux line [] false false with
  | mk code com =>
    cases com with
    | nil => rfl
    | cons a b =>
      rw [haux] at h
      simp at h

lemma parse_fields (line : Str) (al : AliasLine)
    (hp : parseAliasLine line = some al) :
    al.wsBeforeHash = (splitCommentUnquoted line).2.1 ∧
    al.comment = (splitCommentUnquoted line).2.2 := by
  unfold parseAliasLine at hp
  split at hp
  · split at hp
    · split at hp
      · injection hp with hp2
        rw [← hp2]
        exact ⟨rfl, rfl⟩
      · simp at hp
    · simp at hp
  · simp at hp

/-- C7 (corrected): a recognized definition line whose inner body is not
modified by the rewrite is emitted byte-identical, provided the name is
immediately followed by `=` in the source; whitespace between the name and
`=` is dropped by reconstruction (the name group is trimmed), as the
counterexample shows. -/
theorem c7_roundtrip (line : Str) (al : AliasLine) (m canon ffa : Dict Str)
    (hp : parseAliasLine line = some al)
    (hline : line = al.pre ++ al.name ++ '=' ::
      (al.cmdRaw ++ (al.wsBeforeHash ++ al.comment)))
    (hinner : refactorCommand (unwrapCmd al.cmdRaw).inner m canon al.name ffa =
      (unwrapCmd al.cmdRaw).inner) :
    phase1Line m canon ffa line = line := by
  simp only [phase1Line, hp]
  rw [hinner, rewrap_unwrap al.cmdRaw]
  by_cases hcom : al.comment.isEmpty = true
  · have hcomnil : al.comment = [] := List.isEmpty_iff.mp hcom
    have hws : al.wsBeforeHash = [] := by
      obtain ⟨h1, h2⟩ := parse_fields line al hp
      rw [h1]
      exact splitComment_ws_empty line (by rw [← h2]; exact hcomnil)
    rw [if_pos hcom, hline, hcomnil, hws]
    simp
  · rw [if_neg hcom, hline]
    simp [List.append_assoc]

/-- C7 witness: a fully regular definition line with a trailing comment
round-trips byte-identically through the phase-1 emitter. -/
theorem c7_roundtrip_witness :
    phase1Line [("ll".data, "ls -la".data)]
        [("ls -la".data, "ll".data)] [("ll".data, "ls -la".data)]
        "alias ll='ls -la' # note".data = "alias ll='ls -la' # note".data :=
  c7_roundtrip "alias ll='ls -la' # note".data
    ⟨"alias ll='ls -la' # note".data, "alias ".data, "ll".data,
     "'ls -la'".data, " ".data, "# note".data⟩
    [("ll".data, "ls -la".data)] [("ls -la".data, "ll".data)]
    [("ll".data, "ls -la".data)]
    (by decide) (by decide) (by decide)

/-- C7 counterexample: the line `alias x =y` is recognized as a shortcut
definition, its inner body `y` is not modified by any rewrite, yet the
emitted line is `alias x=y` — the whitespace between the name and `=` is
not reconstructed, so the round-trip is not byte-identical. -/
theorem c7_counterexample :
    (parseAliasLine "alias x =y".data).isSome = true ∧
    refactorCommand "y".data (aliasMapOf ["alias x =y".data])
      (canonicalOf (dupesOf (fullForAliasOf (aliasMapOf ["alias x =y".data]))))
      "x".data (fullForAliasOf (aliasMapOf ["alias x =y".data])) = "y".data ∧
    processLines ["alias x =y".data] = ["alias x=y".data] ∧
    ("alias x=y".data : Str) ≠ "alias x =y".data := by
  decide

end Refactor
